import Mathlib

/-!
Verification of the Poseidon permutation library (grain.rs, matrix.rs, spec.rs,
permutation.rs, poseidon.rs) against its natural-language specification.

The state width is `T = R + 1` where `R` is the rate (`RATE` in the source);
states are functions `Fin (R+1) → F` and matrices are Mathlib matrices over
`Fin (R+1)`.  All definitions are shallow embeddings of the Rust source:
loops become folds or structural recursions, in-place mutation becomes pure
state passing, and `Vec` indexing with a known length becomes either a `List`
or a function out of `ℕ` consulted only below that length.
-/

section Defs

variable {F : Type} [Field F] {R : ℕ}

/-- State vector of `T = R + 1` field elements (spec.rs `State`).  Lane 0 is the
capacity lane, lanes `1..T` are the rate lanes. -/
abbrev StateVec (F : Type) (R : ℕ) := Fin (R + 1) → F

/-- Square matrix over the field, as used by matrix.rs (`Matrix<F, T>`). -/
abbrev SqMat (F : Type) (n : ℕ) := Matrix (Fin n) (Fin n) F

/-- The `x^5` S-box applied to one element, computed exactly as in
`State::sbox_full`: `tmp = e*e; e *= tmp; e *= tmp`. -/
def sboxVal (e : F) : F := e * (e * e) * (e * e)

/-- `State::sbox_full`: apply the S-box to every lane. -/
def sbox_full (s : StateVec F R) : StateVec F R := fun i => sboxVal (s i)

/-- `State::sbox_part`: apply the S-box to lane 0 only. -/
def sbox_part (s : StateVec F R) : StateVec F R := Function.update s 0 (sboxVal (s 0))

/-- `State::add_constants`: element-wise addition of a `T`-sized constant vector. -/
def add_constants (s c : StateVec F R) : StateVec F R := fun i => s i + c i

/-- `State::add_constant`: add a single scalar to lane 0 only. -/
def add_constant (s : StateVec F R) (c : F) : StateVec F R :=
  Function.update s 0 (s 0 + c)

/-- `Matrix::mul_vector`: `result[i] = Σ_j v[j] * A[i][j]` (the source
accumulates `*cell += *v_i * *a_i` over row `i`). -/
def mul_vector {n : ℕ} (A : SqMat F n) (v : Fin n → F) : Fin n → F :=
  fun i => ∑ j, v j * A i j

/-- `Matrix::invert`: Gauss–Jordan elimination on the augmented matrix `[A | I]`,
kept as the pair (left half, right half).  For every pivot `i` and row `j ≠ i`
the row operation `m[j] -= (m[j][i]/m[i][i]) * m[i]` is applied to both halves;
afterwards the right half row `i` is scaled by `m[i][i]⁻¹`.  As in the source,
the routine assumes invertibility and returns garbage on singular input
(`x⁻¹` at `0` is `0` here, where the source would panic). -/
def invert {n : ℕ} (A : SqMat F n) : SqMat F n :=
  let stepPair : SqMat F n × SqMat F n → Fin n → Fin n → SqMat F n × SqMat F n := fun p i j =>
    let r := p.1 j i * (p.1 i i)⁻¹
    (Matrix.of fun a b => if a = j then p.1 j b - r * p.1 i b else p.1 a b,
     Matrix.of fun a b => if a = j then p.2 j b - r * p.2 i b else p.2 a b)
  let m := (List.finRange n).foldl
      (fun p i => (List.finRange n).foldl (fun q j => if i = j then q else stepPair q i j) p)
      (A, (1 : SqMat F n))
  Matrix.of fun i j => m.2 i j * (m.1 i i)⁻¹

/-- `Matrix::w`: the first column of `A` without its top entry. -/
def wCol (A : SqMat F (R + 1)) : Fin R → F := fun i => A i.succ 0

/-- `Matrix::sub`: the bottom-right `R × R` block of `A`. -/
def subMat (A : SqMat F (R + 1)) : SqMat F R := Matrix.of fun i j => A i.succ j.succ

/-- The `prime` closure in `MDSMatrix::factorise`: the identity matrix with its
bottom-right block replaced by `hat`. -/
def primeM (hat : SqMat F R) : SqMat F (R + 1) :=
  Matrix.of fun i j =>
    Fin.cases (Fin.cases (1 : F) (fun _ => 0) j) (fun i' => Fin.cases 0 (fun j' => hat i' j') j) i

/-- The `prime_prime` closure in `MDSMatrix::factorise`: the identity matrix with
its top row replaced by `A`'s top row and the tail of its first column replaced
by `w_hat`. -/
def primePrimeM (A : SqMat F (R + 1)) (w_hat : Fin R → F) : SqMat F (R + 1) :=
  Matrix.of fun i j =>
    Fin.cases (A 0 j)
      (fun i' => Fin.cases (w_hat i') (fun j' => if i' = j' then (1 : F) else 0) j) i

/-- `SparseMDSMatrix`: only the first row and the first-column tail are stored;
the remaining block is the identity. -/
structure SparseMDSMatrix (F : Type) (R : ℕ) where
  row : Fin (R + 1) → F
  col_hat : Fin R → F

/-- `From<MDSMatrix> for SparseMDSMatrix`: read off the first row and the
first-column tail. -/
def toSparse (m : SqMat F (R + 1)) : SparseMDSMatrix F R :=
  { row := fun j => m 0 j, col_hat := fun i => m i.succ 0 }

/-- `SparseMDSMatrix::apply`: `new_s0 = Σ_i row[i]·s_i` and, for `i = 1..T-1`,
`new_s_i = col_hat[i-1]·s_0 + s_i`, all right-hand sides taken from the state
before the application (the source snapshots `words = state.words()`). -/
def SparseMDSMatrix.apply (m : SparseMDSMatrix F R) (s : StateVec F R) : StateVec F R :=
  fun i => Fin.cases (∑ j, m.row j * s j) (fun i' => m.col_hat i' * s 0 + s i'.succ) i

/-- `MDSMatrix::factorise`: `w_hat = (sub A)⁻¹ · w`, `M' = prime (sub A)`,
`M'' = (prime_prime A w_hat)ᵀ` stored in sparse form. -/
def factorise (A : SqMat F (R + 1)) : SqMat F (R + 1) × SparseMDSMatrix F R :=
  let w_hat := mul_vector (invert (subMat A)) (wCol A)
  (primeM (subMat A), toSparse (primePrimeM A w_hat).transpose)

/-- The accumulator of `Spec::calculate_sparse_matrices` after `k` iterations:
`acc_0 = Mᵀ` and `acc_{k+1} = Mᵀ · (factorise acc_k).M'`. -/
def sparseAcc (mdsT : SqMat F (R + 1)) : ℕ → SqMat F (R + 1)
  | 0 => mdsT
  | k + 1 => mdsT * (factorise (sparseAcc mdsT k)).1

/-- `Spec::calculate_sparse_matrices`: collect the `M''` of each iteration,
reverse the list, and return the transposed final accumulator as
`pre_sparse_mds`. -/
def calculate_sparse_matrices (r_p : ℕ) (mds : SqMat F (R + 1)) :
    List (SparseMDSMatrix F R) × SqMat F (R + 1) :=
  (((List.range r_p).map fun k => (factorise (sparseAcc mds.transpose k)).2).reverse,
   (sparseAcc mds.transpose r_p).transpose)

/-- The backward accumulator loop of `Spec::calculate_optimized_constants`,
written as a recursion on the number of partial rounds.  `E i` is the raw
constant `C_raw[h + i]`.  The source iterates `i = r_p - 1` down to `0` with
`tmp = invM·acc; partial[i] = tmp[0]; tmp[0] = 0; acc = tmp + C_raw[h+i]`
starting from `acc = C_raw[h + r_p]`; peeling the final iteration (`i = 0`)
off a loop over `E` is the same as one step around the loop over `E ∘ (+1)`,
which is this recursion. -/
def calculatePartialConstants (invM : SqMat F (R + 1)) (E : ℕ → StateVec F R) :
    ℕ → StateVec F R × List F
  | 0 => (E 0, [])
  | rp + 1 =>
    let p := calculatePartialConstants invM (fun i => E (i + 1)) rp
    let tmp := mul_vector invM p.1
    (fun j => Function.update tmp 0 (0 : F) j + E 0 j, tmp 0 :: p.2)

/-- `OptimizedConstants`: the three-phase constant schedule.  `partialC` and
`endC` stand for the source fields `partial` and `end`. -/
structure OptimizedConstants (F : Type) (R : ℕ) where
  start : List (StateVec F R)
  partialC : List F
  endC : List (StateVec F R)

/-- `MDSMatrices`: dense MDS, pre-sparse matrix and the sparse matrices. -/
structure MDSMatrices (F : Type) (R : ℕ) where
  mds : SqMat F (R + 1)
  pre_sparse_mds : SqMat F (R + 1)
  sparse_matrices : List (SparseMDSMatrix F R)

/-- `Spec`: round numbers, matrices and optimized constants. -/
structure Spec (F : Type) (R : ℕ) where
  r_f : ℕ
  mds_matrices : MDSMatrices F R
  constants : OptimizedConstants F R

/-- `Spec::calculate_optimized_constants`.  `C r` is the raw round constant
`C_raw[r]` of round `r < r_f + r_p`.  `start[0] = C_raw[0]`,
`start[k] = invM·C_raw[k]` for `k = 1..h-1`, then the backward accumulator's
final value (times `invM`) is pushed; `end[k] = invM·C_raw[h+r_p+1+k]`. -/
def calculate_optimized_constants (r_f r_p : ℕ) (C : ℕ → StateVec F R)
    (mds : SqMat F (R + 1)) : OptimizedConstants F R :=
  let inverse_mds := invert mds
  let r_f_half := r_f / 2
  let p := calculatePartialConstants inverse_mds (fun i => C (r_f_half + i)) r_p
  { start := ((List.range r_f_half).map fun k =>
        if k = 0 then C 0 else mul_vector inverse_mds (C k)) ++ [mul_vector inverse_mds p.1],
    partialC := p.2,
    endC := (List.range (r_f_half - 1)).map fun k =>
        mul_vector inverse_mds (C (r_f_half + r_p + 1 + k)) }

/-- `Spec::new`, with the Grain output `(C_raw, mds)` taken as parameters. -/
def Spec.new (r_f r_p : ℕ) (C : ℕ → StateVec F R) (mds : SqMat F (R + 1)) : Spec F R :=
  let sm := calculate_sparse_matrices r_p mds
  { r_f := r_f,
    constants := calculate_optimized_constants r_f r_p C mds,
    mds_matrices := { mds := mds, sparse_matrices := sm.1, pre_sparse_mds := sm.2 } }

/-- `Spec::permute` (permutation.rs): the optimized permutation schedule. -/
def Spec.permute (spec : Spec F R) (state : StateVec F R) : StateVec F R :=
  let r_f := spec.r_f / 2
  let zeroV : StateVec F R := fun _ => 0
  -- First half of the full rounds
  let s0 := add_constants state (spec.constants.start.getD 0 zeroV)
  let s1 := ((spec.constants.start.drop 1).take (r_f - 1)).foldl
      (fun s c => mul_vector spec.mds_matrices.mds (add_constants (sbox_full s) c)) s0
  let s2 := mul_vector spec.mds_matrices.pre_sparse_mds
      (add_constants (sbox_full s1) (spec.constants.start.getLastD zeroV))
  -- Partial rounds
  let s3 := (spec.constants.partialC.zip spec.mds_matrices.sparse_matrices).foldl
      (fun s cm => SparseMDSMatrix.apply cm.2 (add_constant (sbox_part s) cm.1)) s2
  -- Second half of the full rounds
  let s4 := spec.constants.endC.foldl
      (fun s c => mul_vector spec.mds_matrices.mds (add_constants (sbox_full s) c)) s3
  mul_vector spec.mds_matrices.mds (sbox_full s4)

/-- `SpecRef::permute` (permutation.rs tests): the unoptimized reference
permutation.  For each round it adds the raw constant, applies the S-box
(full in the first `h` and last `h` rounds, partial in between) and multiplies
by the dense MDS matrix. -/
def SpecRef.permute (mds : SqMat F (R + 1)) (C : ℕ → StateVec F R) (r_f r_p : ℕ)
    (state : StateVec F R) : StateVec F R :=
  let h := r_f / 2
  let cs := (List.range (r_f + r_p)).map C
  let s1 := (cs.take h).foldl
      (fun s c => mul_vector mds (sbox_full (add_constants s c))) state
  let s2 := ((cs.drop h).take r_p).foldl
      (fun s c => mul_vector mds (sbox_part (add_constants s c))) s1
  (cs.drop (h + r_p)).foldl
      (fun s c => mul_vector mds (sbox_full (add_constants s c))) s2

end Defs

section GrainDefs

/-- `Grain::new_bit`: the feedback bit is the XOR of the taps written in the
source as `{62, 51, 38, 23, 13}` folded over `bit_sequence[0]`; the register
pops its front bit and pushes the new bit.  The register is the list of bits,
front = `b[0]`; out-of-range reads (never hit at length 80) default to
`false`. -/
def Grain.new_bit (bs : List Bool) : Bool × List Bool :=
  let b := [62, 51, 38, 23, 13].foldl (fun acc pos => xor acc (bs.getD pos false)) (bs.getD 0 false)
  (b, bs.tail ++ [b])

/-- Advance the register `n` times, discarding the generated bits. -/
def Grain.advance (bs : List Bool) : ℕ → List Bool
  | 0 => bs
  | n + 1 => Grain.advance (Grain.new_bit bs).2 n

/-- `Iterator::next for Grain`: `while !self.new_bit() { self.new_bit(); }
Some(self.new_bit())`, with explicit fuel standing for the (unbounded) Rust
loop; `none` means the loop did not terminate within `fuel` iterations. -/
def Grain.next_bit : ℕ → List Bool → Option (Bool × List Bool)
  | 0, _ => none
  | fuel + 1, bs =>
    let a := Grain.new_bit bs
    if a.1 then some (Grain.new_bit a.2)
    else Grain.next_bit fuel (Grain.new_bit a.2).2

end GrainDefs

section SpongeDefs

variable {F : Type} [Field F] {R : ℕ}

/-- `F::from_u128`: the image of an unsigned 128-bit integer in the field. -/
def from_u128 (n : ℕ) : F := (n : F)

/-- `State::default`: all lanes zero except the capacity lane `s_0`, which is
set to `from_u128(1 << 64)`. -/
def State.default : StateVec F R :=
  Function.update (fun _ => (0 : F)) 0 (from_u128 (1 <<< 64))

/-- Add a chunk of inputs into the rate lanes `1..T`:
`chunk.iter().zip(state.0.iter_mut().skip(1))` adds `chunk[i]` to lane `i+1`.
Lanes beyond the chunk's length are unchanged, which the `getD _ 0` default
expresses by adding zero. -/
def add_inputs (s : StateVec F R) (chunk : List F) : StateVec F R :=
  fun i => Fin.cases (s 0) (fun i' => s i'.succ + chunk.getD i' 0) i

/-- Slices `l` into chunks of `n` elements, the last chunk possibly shorter
(Rust's `chunks`).  Degenerate `n = 0` yields no chunks (Rust would panic);
all call sites use `n = R ≥ 1`. -/
def chunksOf {α : Type} (n : ℕ) (l : List α) : List (List α) :=
  if _h : l.length = 0 ∨ n = 0 then [] else l.take n :: chunksOf n (l.drop n)
termination_by l.length
decreasing_by
  push_neg at _h
  simp only [List.length_drop]
  omega

/-- The variable-length sponge (poseidon.rs `Poseidon`): permutation state,
spec, and the absorption line. -/
structure Poseidon (F : Type) (R : ℕ) where
  state : StateVec F R
  spec : Spec F R
  absorbing : List F

/-- `Poseidon::new`: clear state with the default capacity tag and empty
absorption line.  The source builds the spec with `Spec::new(r_f, r_p)`; here
the already-built spec is a parameter. -/
def Poseidon.new (spec : Spec F R) : Poseidon F R :=
  { spec := spec, state := State.default, absorbing := [] }

/-- `Poseidon::update`: concatenate the absorption line with the new elements,
then walk the `RATE`-sized chunks: a full chunk is added into the rate lanes
and followed by a permutation (clearing the line), a short chunk (necessarily
last) becomes the new absorption line. -/
def Poseidon.update (p : Poseidon F R) (elements : List F) : Poseidon F R :=
  let input_elements := p.absorbing ++ elements
  let res := (chunksOf R input_elements).foldl
      (fun (q : StateVec F R × List F) chunk =>
        if chunk.length < R then (q.1, chunk)
        else (Spec.permute p.spec (add_inputs q.1 chunk), []))
      (p.state, p.absorbing)
  { p with state := res.1, absorbing := res.2 }

/-- `Poseidon::squeeze`: append the sentinel `1` to the absorption line, add it
into the rate lanes, permute once, clear the line, and return lane `s_1`. -/
def Poseidon.squeeze (p : Poseidon F R) : Poseidon F R × F :=
  let last_chunk := p.absorbing ++ [(1 : F)]
  let state' := Spec.permute p.spec (add_inputs p.state last_chunk)
  ({ p with state := state', absorbing := [] }, state' 1)

/-- A public call on the variable-length sponge. -/
inductive SpongeCall (F : Type) where
  | update (xs : List F)
  | squeeze

/-- Run a sequence of public calls against a sponge. -/
def runCalls (p : Poseidon F R) : List (SpongeCall F) → Poseidon F R
  | [] => p
  | SpongeCall.update xs :: rest => runCalls (p.update xs) rest
  | SpongeCall.squeeze :: rest => runCalls (p.squeeze).1 rest

/-- Reference variable-length hash, following the spec sentence word for word
(the comparison definition for the refinement-style claim C3): concatenate
the input with the sentinel `1`, zero-pad to a multiple of `RATE`, absorb each
`RATE`-block into lanes `1..T` with a permutation after each block, and return
lane `s_1`. -/
def specVarLengthHash (spec : Spec F R) (xs : List F) : F :=
  let padded := (xs ++ [(1 : F)]) ++ List.replicate ((R - (xs.length + 1) % R) % R) 0
  ((chunksOf R padded).foldl (fun st blk => Spec.permute spec (add_inputs st blk))
    State.default) 1

/-- Proof-layer recursion equivalent to the chunk walk of `Poseidon::update`:
process `l` block by block, returning the final permutation state and the
short leftover. -/
def absorbBlocks (hR : 0 < R) (spec : Spec F R) (st : StateVec F R) (l : List F) :
    StateVec F R × List F :=
  if _h : l.length < R then (st, l)
  else absorbBlocks hR spec (Spec.permute spec (add_inputs st (l.take R))) (l.drop R)
termination_by l.length
decreasing_by
  simp only [List.length_drop]
  omega

end SpongeDefs

section StageDefs

variable {F : Type} [Field F] {R : ℕ}

/-- The state of the optimized permutation after steps 1–5 of the schedule
(first half, partial rounds, and the end-constants loop), i.e. everything of
`Spec::permute` except the terminal `sbox_full` and MDS multiplication. -/
def Spec.permuteBeforeLast (spec : Spec F R) (state : StateVec F R) : StateVec F R :=
  let r_f := spec.r_f / 2
  let zeroV : StateVec F R := fun _ => 0
  let s0 := add_constants state (spec.constants.start.getD 0 zeroV)
  let s1 := ((spec.constants.start.drop 1).take (r_f - 1)).foldl
      (fun s c => mul_vector spec.mds_matrices.mds (add_constants (sbox_full s) c)) s0
  let s2 := mul_vector spec.mds_matrices.pre_sparse_mds
      (add_constants (sbox_full s1) (spec.constants.start.getLastD zeroV))
  let s3 := (spec.constants.partialC.zip spec.mds_matrices.sparse_matrices).foldl
      (fun s cm => SparseMDSMatrix.apply cm.2 (add_constant (sbox_part s) cm.1)) s2
  spec.constants.endC.foldl
      (fun s c => mul_vector spec.mds_matrices.mds (add_constants (sbox_full s) c)) s3

end StageDefs

section WitnessDefs

instance : Fact (Nat.Prime 11) := ⟨by norm_num⟩

/-- A tiny concrete field used by witnesses that must evaluate the Gauss–Jordan
inversion inside the kernel: `Fin 5` with `a⁻¹ = a³` (so that `⁻¹` reduces by
structural computation, unlike `ZMod`'s extended-gcd inverse).  For every
nonzero `a` in the 5-element field, `a⁴ = 1`, hence `a · a³ = 1`. -/
instance : Field (Fin 5) :=
  { Fin.instCommRing 5 with
    inv := fun a => a * a * a,
    div := fun a b => a * (b * b * b),
    div_eq_mul_inv := by decide,
    nnqsmul := _,
    qsmul := _,
    exists_pair_ne := ⟨0, 1, by decide⟩,
    mul_inv_cancel := by decide,
    inv_zero := by decide }

/-- The 80-bit register used to refute claim C2: all zeros except bits 14 and 15.
Its first four generated bits are `0, 1, 1, 0`. -/
def c2reg : List Bool := List.replicate 14 false ++ [true, true] ++ List.replicate 64 false

/-- Concrete MDS matrix for the C1 witness: `[[1, 2], [3, 4]]` over `Fin 5`. -/
def c1mds : SqMat (Fin 5) 2 := Matrix.of fun i j => ((1 + i.val * 2 + j.val : ℕ) : Fin 5)

/-- Concrete raw constants for the C1 witness. -/
def c1C : ℕ → StateVec (Fin 5) 1 := fun r i => ((r + 2 * i.val + 1 : ℕ) : Fin 5)

/-- Concrete initial state for the C1 witness. -/
def c1state : StateVec (Fin 5) 1 := fun i => ((i.val + 3 : ℕ) : Fin 5)

end WitnessDefs

section GrainClaims

/-- C4: `Grain::new_bit` returns `b[0] XOR b[13] XOR b[23] XOR b[38] XOR b[51]
XOR b[62]` (the source's fold over `{62, 51, 38, 23, 13}` seeded with `b[0]`
equals this six-tap XOR), and shifts the register by popping `b[0]` and pushing
the new bit, so the register length stays 80. -/
theorem c4_grain_new_bit (bs : List Bool) (h : bs.length = 80) :
    (Grain.new_bit bs).1 =
      xor (xor (xor (xor (xor (bs.getD 0 false) (bs.getD 13 false)) (bs.getD 23 false))
        (bs.getD 38 false)) (bs.getD 51 false)) (bs.getD 62 false) ∧
    (Grain.new_bit bs).2 = bs.tail ++ [(Grain.new_bit bs).1] ∧
    (Grain.new_bit bs).2.length = 80 := by
  refine ⟨?_, rfl, ?_⟩
  · simp only [Grain.new_bit, List.foldl]
    generalize bs.getD 0 false = a0
    generalize bs.getD 13 false = a13
    generalize bs.getD 23 false = a23
    generalize bs.getD 38 false = a38
    generalize bs.getD 51 false = a51
    generalize bs.getD 62 false = a62
    revert a0 a13 a23 a38 a51 a62
    decide
  · have hne : bs ≠ [] := by
      intro hn
      rw [hn] at h
      simp at h
    simp [Grain.new_bit, List.length_tail, h]

/-- Witness for C4 at the all-zero register. -/
theorem c4_grain_new_bit_witness :
    (List.replicate 80 false).length = 80 ∧
    ((Grain.new_bit (List.replicate 80 false)).1 =
      xor (xor (xor (xor (xor ((List.replicate 80 false).getD 0 false)
        ((List.replicate 80 false).getD 13 false)) ((List.replicate 80 false).getD 23 false))
        ((List.replicate 80 false).getD 38 false)) ((List.replicate 80 false).getD 51 false))
        ((List.replicate 80 false).getD 62 false) ∧
    (Grain.new_bit (List.replicate 80 false)).2 =
      (List.replicate 80 false).tail ++ [(Grain.new_bit (List.replicate 80 false)).1] ∧
    (Grain.new_bit (List.replicate 80 false)).2.length = 80) :=
  ⟨by decide, c4_grain_new_bit (List.replicate 80 false) (by decide)⟩

/-- C2 (counterexample): at the valid 80-bit register `c2reg`, whose generated
bit stream starts `0, 1, 1, 0`, the observed bit of the Grain output stream is
not produced by advancing the register exactly twice and keeping the second
generated bit: the code discards the second bit of the `0`-headed pair and
returns the fourth generated bit `0` after four advances, while the claimed
rule would return the second generated bit `1` after two. -/
theorem c2_decimation_counterexample :
    c2reg.length = 80 ∧
      Grain.next_bit 10 c2reg ≠ some (Grain.new_bit (Grain.new_bit c2reg).2) := by
  decide

/-- C2 (amended): each observed bit of the Grain output stream is produced by
generating bits in pairs, two register advances per pair: if the first bit of a
pair is `1` the second is kept as the observed output, and if it is `0` the
second is discarded and the next pair is generated.  So an observed bit that
consumes `k` discarded pairs is the bit generated at position `2k + 1` and
leaves the register advanced `2k + 2` times. -/
theorem c2_decimation_amended (fuel : ℕ) (bs : List Bool) (b : Bool) (bs' : List Bool)
    (h : Grain.next_bit fuel bs = some (b, bs')) :
    ∃ k, (∀ j < k, (Grain.new_bit (Grain.advance bs (2 * j))).1 = false) ∧
      (Grain.new_bit (Grain.advance bs (2 * k))).1 = true ∧
      b = (Grain.new_bit (Grain.advance bs (2 * k + 1))).1 ∧
      bs' = Grain.advance bs (2 * k + 2) := by
  induction fuel generalizing bs with
  | zero => simp [Grain.next_bit] at h
  | succ n ih =>
    rw [Grain.next_bit] at h
    by_cases ha : (Grain.new_bit bs).1
    · rw [if_pos ha] at h
      refine ⟨0, by omega, ?_, ?_, ?_⟩
      · simpa [Grain.advance] using ha
      · have hp := (Option.some.injEq _ _).mp h
        have hb : b = (Grain.new_bit (Grain.new_bit bs).2).1 := by
          rw [hp]
        simpa [Grain.advance] using hb
      · have hp := (Option.some.injEq _ _).mp h
        have hb : bs' = (Grain.new_bit (Grain.new_bit bs).2).2 := by
          rw [hp]
        simpa [Grain.advance] using hb
    · rw [if_neg ha] at h
      obtain ⟨k, h1, h2, h3, h4⟩ := ih _ h
      have hsh : ∀ m, Grain.advance bs (m + 2) =
          Grain.advance (Grain.new_bit (Grain.new_bit bs).2).2 m := by
        intro m
        rfl
      refine ⟨k + 1, ?_, ?_, ?_, ?_⟩
      · intro j hj
        cases j with
        | zero => simpa [Grain.advance] using ha
        | succ j' =>
          have : 2 * (j' + 1) = 2 * j' + 2 := by omega
          rw [this, hsh]
          exact h1 j' (by omega)
      · have : 2 * (k + 1) = 2 * k + 2 := by omega
        rw [this, hsh]
        exact h2
      · have : 2 * (k + 1) + 1 = (2 * k + 1) + 2 := by omega
        rw [this, hsh]
        exact h3
      · have : 2 * (k + 1) + 2 = (2 * k + 2) + 2 := by omega
        rw [this, hsh]
        exact h4

/-- Witness for the amended C2 at the register `c2reg`: the observed bit `0`
is emitted after one discarded pair and four register advances. -/
theorem c2_decimation_amended_witness :
    Grain.next_bit 10 c2reg = some (false, Grain.advance c2reg 4) ∧
      (∃ k, (∀ j < k, (Grain.new_bit (Grain.advance c2reg (2 * j))).1 = false) ∧
        (Grain.new_bit (Grain.advance c2reg (2 * k))).1 = true ∧
        false = (Grain.new_bit (Grain.advance c2reg (2 * k + 1))).1 ∧
        Grain.advance c2reg 4 = Grain.advance c2reg (2 * k + 2)) :=
  ⟨by decide, c2_decimation_amended 10 c2reg false (Grain.advance c2reg 4) (by decide)⟩

end GrainClaims

section EasyClaims

variable {F : Type} [Field F] {R : ℕ}

/-- C7: applying a sparse MDS matrix sets the new lane 0 to `Σ_i row[i]·s_i`
and, for `i = 1..T-1`, the new lane `i` to `col_hat[i-1]·s_0 + s_i`, with all
right-hand sides read from the state before the application. -/
theorem c7_sparse_apply (m : SparseMDSMatrix F R) (s : StateVec F R) :
    (m.apply s) 0 = ∑ j, m.row j * s j ∧
      ∀ i : Fin R, (m.apply s) i.succ = m.col_hat i * s 0 + s i.succ := by
  constructor
  · simp [SparseMDSMatrix.apply]
  · intro i
    simp [SparseMDSMatrix.apply]

/-- C6: the terminal step of the optimized permutation applies the full S-box
and then the dense MDS matrix, with no constant addition after the last S-box:
the final state is `M · sbox_full` of the state reached after the
end-constants loop. -/
theorem c6_terminal_step (spec : Spec F R) (state : StateVec F R) :
    spec.permute state =
      mul_vector spec.mds_matrices.mds (sbox_full (spec.permuteBeforeLast state)) := rfl

/-- C9: a freshly constructed variable-length hasher has capacity lane
`s_0 = 2^64` (the image of the 128-bit integer `1 << 64`), all other lanes
zero, and an empty absorb buffer. -/
theorem c9_fresh_hasher (spec : Spec F R) :
    (Poseidon.new spec).state 0 = (2 : F) ^ 64 ∧
      (∀ i : Fin R, (Poseidon.new spec).state i.succ = 0) ∧
      (Poseidon.new spec).absorbing = [] := by
  refine ⟨?_, ?_, rfl⟩
  · show (State.default : StateVec F R) 0 = (2 : F) ^ 64
    rw [State.default, Function.update_same, from_u128]
    norm_num [Nat.shiftLeft_eq]
  · intro i
    show (State.default : StateVec F R) i.succ = 0
    rw [State.default, Function.update_noteq (Fin.succ_ne_zero i)]

/-- Helper: the backward accumulator loop emits exactly one scalar per
partial round. -/
theorem calculatePartialConstants_snd_length (invM : SqMat F (R + 1)) :
    ∀ (rp : ℕ) (E : ℕ → StateVec F R), (calculatePartialConstants invM E rp).2.length = rp := by
  intro rp
  induction rp with
  | zero => intro E; rfl
  | succ n ih =>
    intro E
    simp only [calculatePartialConstants, List.length_cons]
    rw [ih]

/-- C5: for even `R_F ≥ 2` the optimized constants have exactly the shapes
`start`: `R_F/2 + 1` arrays, `partial`: `R_P` scalars, `end`: `R_F/2 - 1`
arrays. -/
theorem c5_optimized_constant_shapes (r_f r_p : ℕ) (C : ℕ → StateVec F R)
    (mds : SqMat F (R + 1)) (_h2 : 2 ≤ r_f) (_he : r_f % 2 = 0) :
    (calculate_optimized_constants r_f r_p C mds).start.length = r_f / 2 + 1 ∧
      (calculate_optimized_constants r_f r_p C mds).partialC.length = r_p ∧
      (calculate_optimized_constants r_f r_p C mds).endC.length = r_f / 2 - 1 := by
  refine ⟨?_, ?_, ?_⟩
  · simp [calculate_optimized_constants]
  · simp [calculate_optimized_constants, calculatePartialConstants_snd_length]
  · simp [calculate_optimized_constants]

/-- Witness for C5 at a concrete instance over `ZMod 11` with
`R_F = 2`, `R_P = 3`. -/
theorem c5_optimized_constant_shapes_witness :
    (2 ≤ 2 ∧ 2 % 2 = 0) ∧
      ((calculate_optimized_constants (R := 1) 2 3 (fun _ _ => (0 : ZMod 11))
          (Matrix.of fun _ _ => 1)).start.length = 2 / 2 + 1 ∧
        (calculate_optimized_constants (R := 1) 2 3 (fun _ _ => (0 : ZMod 11))
          (Matrix.of fun _ _ => 1)).partialC.length = 3 ∧
        (calculate_optimized_constants (R := 1) 2 3 (fun _ _ => (0 : ZMod 11))
          (Matrix.of fun _ _ => 1)).endC.length = 2 / 2 - 1) :=
  ⟨⟨by decide, by decide⟩,
    c5_optimized_constant_shapes 2 3 (fun _ _ => (0 : ZMod 11))
      (Matrix.of fun _ _ => 1) (by decide) (by decide)⟩

end EasyClaims

section SpongeLemmas

variable {F : Type} [Field F] {R : ℕ}

theorem chunksOf_nil {α : Type} (n : ℕ) : chunksOf n ([] : List α) = [] := by
  rw [chunksOf]
  simp

theorem chunksOf_cons {α : Type} (n : ℕ) (l : List α) (hl : l ≠ []) (hn : n ≠ 0) :
    chunksOf n l = l.take n :: chunksOf n (l.drop n) := by
  rw [chunksOf]
  rw [dif_neg]
  push_neg
  exact ⟨fun h => hl (List.length_eq_zero.mp h), hn⟩

theorem absorbBlocks_short (hR : 0 < R) (spec : Spec F R) (st : StateVec F R) (l : List F)
    (h : l.length < R) : absorbBlocks hR spec st l = (st, l) := by
  rw [absorbBlocks]
  exact dif_pos h

theorem absorbBlocks_step (hR : 0 < R) (spec : Spec F R) (st : StateVec F R) (l : List F)
    (h : ¬ l.length < R) :
    absorbBlocks hR spec st l =
      absorbBlocks hR spec (Spec.permute spec (add_inputs st (l.take R))) (l.drop R) := by
  conv_lhs => rw [absorbBlocks]
  exact dif_neg h

/-- The chunk walk of `Poseidon::update` computes `absorbBlocks` (whenever the
combined input is nonempty; an empty input leaves the fold state untouched). -/
theorem foldChunks_eq_absorbBlocks (hR : 0 < R) (spec : Spec F R) :
    ∀ (l : List F) (st : StateVec F R) (ab : List F), l ≠ [] →
      (chunksOf R l).foldl
        (fun (q : StateVec F R × List F) chunk =>
          if chunk.length < R then (q.1, chunk)
          else (Spec.permute spec (add_inputs q.1 chunk), []))
        (st, ab) = absorbBlocks hR spec st l := by
  have key : ∀ (N : ℕ) (l : List F) (st : StateVec F R) (ab : List F),
      l.length ≤ N → l ≠ [] →
      (chunksOf R l).foldl
        (fun (q : StateVec F R × List F) chunk =>
          if chunk.length < R then (q.1, chunk)
          else (Spec.permute spec (add_inputs q.1 chunk), []))
        (st, ab) = absorbBlocks hR spec st l := by
    intro N
    induction N with
    | zero =>
      intro l st ab hN hl
      exact absurd (List.length_eq_zero.mp (Nat.le_zero.mp hN)) hl
    | succ N ih =>
      intro l st ab hN hl
      rw [chunksOf_cons R l hl (by omega), List.foldl_cons]
      by_cases h : l.length < R
      · have ht : l.take R = l := List.take_of_length_le (by omega)
        have hd : l.drop R = [] := List.drop_eq_nil_of_le (by omega)
        rw [ht, hd, chunksOf_nil, List.foldl_nil, if_pos h, absorbBlocks_short hR spec st l h]
      · have hlen : (l.take R).length = R := by
          rw [List.length_take]
          omega
        rw [if_neg (by rw [hlen]; omega)]
        rw [absorbBlocks_step hR spec st l h]
        by_cases hd : l.drop R = []
        · rw [hd, chunksOf_nil, List.foldl_nil,
            absorbBlocks_short hR spec _ [] (by simpa using hR)]
        · refine ih (l.drop R) _ [] ?_ hd
          rw [List.length_drop]
          have := List.length_pos.mpr hl
          omega
  intro l st ab hl
  exact key l.length l st ab le_rfl hl

/-- `Poseidon::update` in closed form: permute over the full blocks of
`absorbing ++ elements`, keep the leftover as the new absorption line. -/
theorem Poseidon.update_eq (hR : 0 < R) (p : Poseidon F R) (xs : List F) :
    p.update xs =
      { p with
        state := (absorbBlocks hR p.spec p.state (p.absorbing ++ xs)).1,
        absorbing := (absorbBlocks hR p.spec p.state (p.absorbing ++ xs)).2 } := by
  by_cases h : p.absorbing ++ xs = []
  · obtain ⟨ha, hxs⟩ := List.append_eq_nil.mp h
    rw [Poseidon.update]
    simp only [ha, hxs, List.append_nil, chunksOf_nil, List.foldl_nil]
    rw [absorbBlocks_short hR p.spec p.state [] (by simpa using hR)]
  · rw [Poseidon.update]
    simp only [foldChunks_eq_absorbBlocks hR p.spec (p.absorbing ++ xs) p.state p.absorbing h]

/-- The leftover of the block walk is the input length modulo `R`. -/
theorem absorbBlocks_snd_length (hR : 0 < R) (spec : Spec F R) :
    ∀ (l : List F) (st : StateVec F R),
      (absorbBlocks hR spec st l).2.length = l.length % R := by
  have key : ∀ (N : ℕ) (l : List F) (st : StateVec F R), l.length ≤ N →
      (absorbBlocks hR spec st l).2.length = l.length % R := by
    intro N
    induction N with
    | zero =>
      intro l st hN
      have : l.length = 0 := Nat.le_zero.mp hN
      rw [absorbBlocks_short hR spec st l (by omega), this, Nat.zero_mod]
    | succ N ih =>
      intro l st hN
      by_cases h : l.length < R
      · rw [absorbBlocks_short hR spec st l h, Nat.mod_eq_of_lt h]
      · rw [absorbBlocks_step hR spec st l h,
          ih (l.drop R) _ (by rw [List.length_drop]; omega), List.length_drop]
        conv_rhs => rw [Nat.mod_eq_sub_mod (by omega : R ≤ l.length)]
  intro l st
  exact key l.length l st le_rfl

/-- Processing `l` and then `m` starting from `l`'s leftover is processing
`l ++ m` in one go. -/
theorem absorbBlocks_append (hR : 0 < R) (spec : Spec F R) :
    ∀ (l : List F) (st : StateVec F R) (m : List F),
      absorbBlocks hR spec (absorbBlocks hR spec st l).1
          ((absorbBlocks hR spec st l).2 ++ m) =
        absorbBlocks hR spec st (l ++ m) := by
  have key : ∀ (N : ℕ) (l : List F) (st : StateVec F R) (m : List F), l.length ≤ N →
      absorbBlocks hR spec (absorbBlocks hR spec st l).1
          ((absorbBlocks hR spec st l).2 ++ m) =
        absorbBlocks hR spec st (l ++ m) := by
    intro N
    induction N with
    | zero =>
      intro l st m hN
      have hl : l = [] := List.length_eq_zero.mp (Nat.le_zero.mp hN)
      rw [hl, absorbBlocks_short hR spec st [] (by simpa using hR), List.nil_append]
    | succ N ih =>
      intro l st m hN
      by_cases h : l.length < R
      · rw [absorbBlocks_short hR spec st l h]
      · rw [absorbBlocks_step hR spec st l h,
          absorbBlocks_step hR spec st (l ++ m) (by rw [List.length_append]; omega),
          List.take_append_of_le_length (by omega), List.drop_append_of_le_length (by omega)]
        exact ih (l.drop R) _ m (by rw [List.length_drop]; omega)
  intro l st m
  exact key l.length l st m le_rfl

/-- The spec-side fold over full blocks equals the first component of the
block walk. -/
theorem specFold_eq_absorbBlocks (hR : 0 < R) (spec : Spec F R) :
    ∀ (l : List F) (st : StateVec F R), l.length % R = 0 →
      (chunksOf R l).foldl (fun st blk => Spec.permute spec (add_inputs st blk)) st =
        (absorbBlocks hR spec st l).1 := by
  have key : ∀ (N : ℕ) (l : List F) (st : StateVec F R), l.length ≤ N → l.length % R = 0 →
      (chunksOf R l).foldl (fun st blk => Spec.permute spec (add_inputs st blk)) st =
        (absorbBlocks hR spec st l).1 := by
    intro N
    induction N with
    | zero =>
      intro l st hN _
      have hl : l = [] := List.length_eq_zero.mp (Nat.le_zero.mp hN)
      rw [hl, chunksOf_nil, List.foldl_nil,
        absorbBlocks_short hR spec st [] (by simpa using hR)]
    | succ N ih =>
      intro l st hN hmod
      by_cases hl : l = []
      · rw [hl, chunksOf_nil, List.foldl_nil,
          absorbBlocks_short hR spec st [] (by simpa using hR)]
      · have hge : ¬ l.length < R := by
          intro hlt
          rw [Nat.mod_eq_of_lt hlt] at hmod
          exact hl (List.length_eq_zero.mp hmod)
        rw [chunksOf_cons R l hl (by omega), List.foldl_cons,
          absorbBlocks_step hR spec st l hge]
        refine ih (l.drop R) _ (by rw [List.length_drop]; omega) ?_
        rw [List.length_drop, ← Nat.mod_eq_sub_mod (by omega)]
        exact hmod
  intro l st hmod
  exact key l.length l st le_rfl hmod

/-- Appending zeros to the absorbed chunk does not change `add_inputs`. -/
theorem add_inputs_append_zeros (st : StateVec F R) (l : List F) (k : ℕ) :
    add_inputs st (l ++ List.replicate k (0 : F)) = add_inputs st l := by
  funext i
  refine Fin.cases rfl (fun i' => ?_) i
  simp only [add_inputs, Fin.cases_succ]
  rcases Nat.lt_or_ge i' l.length with h | h
  · rw [List.getD_append _ _ _ _ h]
  · rw [List.getD_append_right _ _ _ _ h, List.getD_eq_default _ _ h]
    rcases Nat.lt_or_ge (i'.val - l.length) k with h2 | h2
    · rw [List.getD_eq_getElem _ _ (by simpa using h2), List.getElem_replicate]
    · rw [List.getD_eq_default _ _ (by simpa using h2)]

end SpongeLemmas

section SpongeClaims

variable {F : Type} [Field F] {R : ℕ}

/-- C8: starting from a freshly constructed variable-length hasher, after every
finite sequence of public `update`/`squeeze` calls the absorb buffer is
strictly shorter than `RATE`. -/
theorem c8_absorb_buffer_invariant (spec : Spec F R) (calls : List (SpongeCall F))
    (hR : 0 < R) : (runCalls (Poseidon.new spec) calls).absorbing.length < R := by
  have step : ∀ (cs : List (SpongeCall F)) (p : Poseidon F R),
      p.absorbing.length < R → (runCalls p cs).absorbing.length < R := by
    intro cs
    induction cs with
    | nil => intro p hp; exact hp
    | cons c rest ih =>
      intro p hp
      cases c with
      | update xs =>
        rw [runCalls]
        refine ih _ ?_
        rw [Poseidon.update_eq hR p xs]
        simpa [absorbBlocks_snd_length hR p.spec] using Nat.mod_lt _ hR
      | squeeze =>
        rw [runCalls]
        refine ih _ ?_
        simpa [Poseidon.squeeze] using hR
  exact step calls (Poseidon.new spec) (by simpa [Poseidon.new] using hR)

/-- Witness for C8 over `ZMod 11`, `R = 1`, with one update and one squeeze. -/
theorem c8_absorb_buffer_invariant_witness :
    (0 : ℕ) < 1 ∧
      (runCalls (F := ZMod 11) (R := 1)
          (Poseidon.new ⟨2, ⟨1, 1, []⟩, ⟨[], [], []⟩⟩)
          [SpongeCall.update [3, 4, 5], SpongeCall.squeeze]).absorbing.length < 1 :=
  ⟨by decide,
    c8_absorb_buffer_invariant ⟨2, ⟨1, 1, []⟩, ⟨[], [], []⟩⟩
      [SpongeCall.update [3, 4, 5], SpongeCall.squeeze] (by decide)⟩

/-- C10: `update xs` followed by `update ys` leaves the sponge (permutation
state, spec and absorb buffer) exactly as the single call `update (xs ++ ys)`
does, from any sponge configuration; in particular any later squeeze result
is unchanged by splitting the input. -/
theorem c10_update_append (hR : 0 < R) (p : Poseidon F R) (xs ys : List F) :
    (p.update xs).update ys = p.update (xs ++ ys) := by
  rw [Poseidon.update_eq hR p xs, Poseidon.update_eq hR p (xs ++ ys),
    Poseidon.update_eq hR _ ys]
  simp only []
  rw [absorbBlocks_append hR p.spec (p.absorbing ++ xs) p.state ys, List.append_assoc]

/-- Witness for C10 over `ZMod 11`, `R = 1`, splitting a three-element input. -/
theorem c10_update_append_witness :
    (0 : ℕ) < 1 ∧
      ((Poseidon.new (F := ZMod 11) (R := 1) ⟨2, ⟨1, 1, []⟩, ⟨[], [], []⟩⟩).update
          [3, 4]).update [5] =
        (Poseidon.new ⟨2, ⟨1, 1, []⟩, ⟨[], [], []⟩⟩).update ([3, 4] ++ [5]) :=
  ⟨by decide, c10_update_append (by decide) _ [3, 4] [5]⟩

/-- C3: on a fresh hasher, `squeeze` after `update xs` returns the reference
computation: append the sentinel `1`, zero-pad to a multiple of `RATE`, absorb
block-wise with a permutation after each block, return lane `s_1`. -/
theorem c3_variable_length_padding (hR : 0 < R) (spec : Spec F R) (xs : List F) :
    ((Poseidon.new spec).update xs).squeeze.2 = specVarLengthHash spec xs := by
  rw [Poseidon.update_eq hR]
  simp only [Poseidon.new, List.nil_append, Poseidon.squeeze, specVarLengthHash]
  set A := (absorbBlocks hR spec State.default xs).1 with hA
  set r := (absorbBlocks hR spec State.default xs).2 with hr
  set n := xs.length with hn
  set m := n % R with hm
  have hsplit : n + 1 = (m + 1) + R * (n / R) := by
    have := Nat.mod_add_div n R
    omega
  have hmlt : m < R := Nat.mod_lt _ hR
  have hrlen : r.length = m := absorbBlocks_snd_length hR spec xs _
  have hmod1 : (n + 1) % R = (m + 1) % R := by
    rw [hsplit]
    exact Nat.add_mul_mod_self_left (m + 1) R (n / R)
  set pad := (R - (n + 1) % R) % R with hpad
  have hulen : m + 1 + pad = R := by
    by_cases hcase : m + 1 = R
    · have h0 : (n + 1) % R = 0 := by
        rw [hmod1, hcase, Nat.mod_self]
      rw [hpad, h0, Nat.sub_zero, Nat.mod_self]
      omega
    · have hlt : m + 1 < R := by omega
      have h1 : (n + 1) % R = m + 1 := by
        rw [hmod1, Nat.mod_eq_of_lt hlt]
      rw [hpad, h1, Nat.mod_eq_of_lt (by omega)]
      omega
  have hpadlen : ((xs ++ [(1 : F)]) ++ List.replicate pad (0 : F)).length % R = 0 := by
    simp only [List.length_append, List.length_replicate, List.length_cons, List.length_nil,
      ← hn]
    have : n + (0 + 1) + pad = R * (n / R) + R := by omega
    rw [this, ← Nat.mul_succ R]
    exact Nat.mul_mod_right R _
  rw [specFold_eq_absorbBlocks hR spec _ State.default hpadlen]
  rw [List.append_assoc xs [(1 : F)] (List.replicate pad (0 : F))]
  rw [← absorbBlocks_append hR spec xs State.default ([(1 : F)] ++ List.replicate pad (0 : F))]
  rw [← hA, ← hr, ← List.append_assoc r [(1 : F)] (List.replicate pad (0 : F))]
  have hRlen : ((r ++ [(1 : F)]) ++ List.replicate pad (0 : F)).length = R := by
    simp only [List.length_append, List.length_replicate, List.length_cons, List.length_nil,
      hrlen]
    omega
  rw [absorbBlocks_step hR spec A _ (by rw [hRlen]; omega)]
  rw [List.take_of_length_le (by rw [hRlen]), List.drop_eq_nil_of_le (by rw [hRlen])]
  rw [absorbBlocks_short hR spec _ [] (by simpa using hR)]
  rw [add_inputs_append_zeros A (r ++ [(1 : F)]) pad]

/-- Witness for C3 over `ZMod 11`, `R = 1`, with a one-element input. -/
theorem c3_variable_length_padding_witness :
    (0 : ℕ) < 1 ∧
      ((Poseidon.new (F := ZMod 11) (R := 1) ⟨2, ⟨1, 1, []⟩, ⟨[], [], []⟩⟩).update
          [3]).squeeze.2 =
        specVarLengthHash (R := 1) ⟨2, ⟨1, 1, []⟩, ⟨[], [], []⟩⟩ [3] :=
  ⟨by decide, c3_variable_length_padding (by decide) _ [3]⟩

end SpongeClaims

section CrossLemmas

variable {F : Type} [Field F] {R : ℕ}

theorem add_constants_def (u v : StateVec F R) : add_constants u v = u + v := rfl

theorem mul_vector_eq_mulVec {n : ℕ} (A : SqMat F n) (v : Fin n → F) :
    mul_vector A v = A.mulVec v := by
  funext i
  simp [mul_vector, Matrix.mulVec, Matrix.dotProduct, mul_comm]

theorem mul_vector_mul {n : ℕ} (A B : SqMat F n) (v : Fin n → F) :
    mul_vector (A * B) v = mul_vector A (mul_vector B v) := by
  rw [mul_vector_eq_mulVec, mul_vector_eq_mulVec, mul_vector_eq_mulVec, Matrix.mulVec_mulVec]

theorem mul_vector_one {n : ℕ} (v : Fin n → F) : mul_vector (1 : SqMat F n) v = v := by
  rw [mul_vector_eq_mulVec, Matrix.one_mulVec]

theorem mul_vector_add (A : SqMat F (R + 1)) (u v : StateVec F R) :
    mul_vector A (add_constants u v) = add_constants (mul_vector A u) (mul_vector A v) := by
  rw [add_constants_def, add_constants_def, mul_vector_eq_mulVec, mul_vector_eq_mulVec,
    mul_vector_eq_mulVec, Matrix.mulVec_add]

theorem mul_vector_cancel (M : SqMat F (R + 1)) (N : SqMat F (R + 1)) (hMN : M * N = 1)
    (v : StateVec F R) : mul_vector M (mul_vector N v) = v := by
  rw [← mul_vector_mul, hMN, mul_vector_one]

/-- Cancellation with the code's Gauss–Jordan output, in both orders. -/
theorem invert_cancel_left (M : SqMat F (R + 1)) (hM : invert M * M = 1) (v : StateVec F R) :
    mul_vector (invert M) (mul_vector M v) = v :=
  mul_vector_cancel _ _ hM v

theorem invert_cancel_right (M : SqMat F (R + 1)) (hM : invert M * M = 1) (v : StateVec F R) :
    mul_vector M (mul_vector (invert M) v) = v :=
  mul_vector_cancel _ _ ((Matrix.mul_eq_one_comm).mp hM) v

theorem primeM_apply_zero_zero (hat : SqMat F R) : primeM hat 0 0 = 1 := by
  simp [primeM]

theorem primeM_apply_zero_succ (hat : SqMat F R) (j : Fin R) : primeM hat 0 j.succ = 0 := by
  simp [primeM]

theorem primeM_apply_succ_zero (hat : SqMat F R) (i : Fin R) : primeM hat i.succ 0 = 0 := by
  simp [primeM]

theorem primeM_apply_succ_succ (hat : SqMat F R) (i j : Fin R) :
    primeM hat i.succ j.succ = hat i j := by
  simp [primeM]

theorem primePrimeM_apply_zero (A : SqMat F (R + 1)) (wh : Fin R → F) (j : Fin (R + 1)) :
    primePrimeM A wh 0 j = A 0 j := by
  simp [primePrimeM]

theorem primePrimeM_apply_succ_zero (A : SqMat F (R + 1)) (wh : Fin R → F) (i : Fin R) :
    primePrimeM A wh i.succ 0 = wh i := by
  simp [primePrimeM]

theorem primePrimeM_apply_succ_succ (A : SqMat F (R + 1)) (wh : Fin R → F) (i j : Fin R) :
    primePrimeM A wh i.succ j.succ = if i = j then 1 else 0 := by
  simp [primePrimeM]

/-- Multiplication by the transposed `prime` matrix fixes lane 0. -/
theorem primeT_mulvec_zero (hat : SqMat F R) (v : StateVec F R) :
    mul_vector (primeM hat).transpose v 0 = v 0 := by
  simp only [mul_vector, Matrix.transpose_apply, Fin.sum_univ_succ,
    primeM_apply_zero_zero, primeM_apply_succ_zero, mul_one, mul_zero,
    Finset.sum_const_zero, add_zero]

/-- Lane `i + 1` of the transposed `prime` action ignores lane 0. -/
theorem primeT_mulvec_succ (hat : SqMat F R) (v : StateVec F R) (i : Fin R) :
    mul_vector (primeM hat).transpose v i.succ = ∑ j, v j.succ * hat j i := by
  simp only [mul_vector, Matrix.transpose_apply, Fin.sum_univ_succ,
    primeM_apply_zero_succ, primeM_apply_succ_succ, mul_zero, zero_add]

/-- The transposed `prime` matrix commutes with the partial S-box. -/
theorem primeT_sbox_part (hat : SqMat F R) (v : StateVec F R) :
    mul_vector (primeM hat).transpose (sbox_part v) =
      sbox_part (mul_vector (primeM hat).transpose v) := by
  funext i
  refine Fin.cases ?_ (fun i' => ?_) i
  · rw [primeT_mulvec_zero, sbox_part, sbox_part, Function.update_same, Function.update_same,
      primeT_mulvec_zero]
  · rw [primeT_mulvec_succ, sbox_part, sbox_part, Function.update_noteq (Fin.succ_ne_zero i'),
      primeT_mulvec_succ]
    refine Finset.sum_congr rfl fun j _ => ?_
    rw [Function.update_noteq (Fin.succ_ne_zero j)]

/-- The transposed `prime` matrix commutes with a lane-0 constant addition. -/
theorem primeT_add_constant (hat : SqMat F R) (v : StateVec F R) (c : F) :
    mul_vector (primeM hat).transpose (add_constant v c) =
      add_constant (mul_vector (primeM hat).transpose v) c := by
  funext i
  refine Fin.cases ?_ (fun i' => ?_) i
  · rw [primeT_mulvec_zero, add_constant, add_constant, Function.update_same,
      Function.update_same, primeT_mulvec_zero]
  · rw [primeT_mulvec_succ, add_constant, add_constant,
      Function.update_noteq (Fin.succ_ne_zero i'), primeT_mulvec_succ]
    refine Finset.sum_congr rfl fun j _ => ?_
    rw [Function.update_noteq (Fin.succ_ne_zero j)]

/-- The sparse application of a stored `M''` is multiplication by the
transposed `prime_prime` matrix. -/
theorem sparse_apply_eq_mulvec (A : SqMat F (R + 1)) (wh : Fin R → F) (v : StateVec F R) :
    (toSparse (primePrimeM A wh).transpose).apply v =
      mul_vector (primePrimeM A wh).transpose v := by
  funext i
  refine Fin.cases ?_ (fun i' => ?_) i
  · simp only [SparseMDSMatrix.apply, toSparse, Fin.cases_zero, mul_vector,
      Matrix.transpose_apply]
    exact Finset.sum_congr rfl fun j _ => mul_comm _ _
  · simp only [SparseMDSMatrix.apply, toSparse, Fin.cases_succ, mul_vector,
      Matrix.transpose_apply, Fin.sum_univ_succ, primePrimeM_apply_zero,
      primePrimeM_apply_succ_succ]
    rw [mul_comm]
    congr 1
    rw [Finset.sum_congr rfl fun j (_ : j ∈ Finset.univ) => by
      rw [mul_ite, mul_one, mul_zero]]
    rw [Finset.sum_ite_eq' Finset.univ i' fun j => v j.succ]
    simp

/-- The factorisation identity `A = M' * M''` of `MDSMatrix::factorise`,
assuming the Gauss–Jordan output on the hat block is a genuine right
inverse. -/
theorem factorise_eq (A : SqMat F (R + 1))
    (hhat : subMat A * invert (subMat A) = 1) :
    A = primeM (subMat A) * primePrimeM A (mul_vector (invert (subMat A)) (wCol A)) := by
  ext i j
  rw [Matrix.mul_apply]
  refine Fin.cases ?_ (fun i' => ?_) i
  · rw [Fin.sum_univ_succ]
    simp only [primeM_apply_zero_zero, primeM_apply_zero_succ, one_mul, zero_mul,
      Finset.sum_const_zero, add_zero, primePrimeM_apply_zero]
  · refine Fin.cases ?_ (fun j' => ?_) j
    · rw [Fin.sum_univ_succ]
      simp only [primeM_apply_succ_zero, zero_mul, zero_add, primeM_apply_succ_succ,
        primePrimeM_apply_succ_zero]
      have key : ∑ k : Fin R, subMat A i' k * mul_vector (invert (subMat A)) (wCol A) k =
          wCol A i' := by
        have : ∀ k, subMat A i' k * mul_vector (invert (subMat A)) (wCol A) k =
            subMat A i' k * ((invert (subMat A)).mulVec (wCol A)) k := by
          intro k
          rw [mul_vector_eq_mulVec]
        rw [Finset.sum_congr rfl fun k _ => this k]
        have : ∑ k : Fin R, subMat A i' k * ((invert (subMat A)).mulVec (wCol A)) k =
            (subMat A).mulVec ((invert (subMat A)).mulVec (wCol A)) i' := rfl
        rw [this, Matrix.mulVec_mulVec, hhat, Matrix.one_mulVec]
      rw [key]
      rfl
    · rw [Fin.sum_univ_succ]
      simp only [primeM_apply_succ_zero, zero_mul, zero_add, primeM_apply_succ_succ,
        primePrimeM_apply_succ_succ]
      rw [Finset.sum_congr rfl fun k (_ : k ∈ Finset.univ) => by
        rw [mul_ite, mul_one, mul_zero]]
      rw [Finset.sum_ite_eq' Finset.univ j' fun k => subMat A i' k]
      simp [subMat]

end CrossLemmas

section PhaseLemmas

variable {F : Type} [Field F] {R : ℕ}

/-- Unfolding of the accumulator step of `calculate_sparse_matrices`,
transposed: `acc_{k+1}ᵀ = M'ᵀ_k · M`. -/
theorem sparseAcc_succ_transpose (mds : SqMat F (R + 1)) (k : ℕ) :
    (sparseAcc mds.transpose (k + 1)).transpose =
      (primeM (subMat (sparseAcc mds.transpose k))).transpose * mds := by
  show (mds.transpose * (factorise (sparseAcc mds.transpose k)).1).transpose = _
  rw [Matrix.transpose_mul, Matrix.transpose_transpose]
  rfl

/-- The transposed factorisation identity: `acc_kᵀ = M''ᵀ_k · M'ᵀ_k`. -/
theorem sparseAcc_factor_transpose (mds : SqMat F (R + 1)) (k : ℕ)
    (hhat : subMat (sparseAcc mds.transpose k) *
      invert (subMat (sparseAcc mds.transpose k)) = 1) :
    (sparseAcc mds.transpose k).transpose =
      (primePrimeM (sparseAcc mds.transpose k)
          (mul_vector (invert (subMat (sparseAcc mds.transpose k)))
            (wCol (sparseAcc mds.transpose k)))).transpose *
        (primeM (subMat (sparseAcc mds.transpose k))).transpose := by
  rw [← Matrix.transpose_mul, ← factorise_eq (sparseAcc mds.transpose k) hhat]

/-- A lane-0-zero vector passes through the partial S-box of a sum. -/
theorem sbox_part_add_of_zero (a b : StateVec F R) (hb : b 0 = 0) :
    sbox_part (add_constants a b) = add_constants (sbox_part a) b := by
  funext i
  by_cases hi : i = 0
  · subst hi
    simp only [sbox_part, add_constants, Function.update_same, hb, add_zero]
  · simp only [sbox_part, add_constants, Function.update_noteq hi]

/-- Restoring the zeroed lane: `(x + update tmp 0 0) + tmp 0 · e₀ = x + tmp`. -/
theorem add_constant_restore (x tmp : StateVec F R) :
    add_constant (add_constants x (Function.update tmp 0 (0 : F))) (tmp 0) =
      add_constants x tmp := by
  funext i
  by_cases hi : i = 0
  · subst hi
    simp only [add_constant, add_constants, Function.update_same, add_zero]
  · simp only [add_constant, add_constants, Function.update_noteq hi]

/-- Rearranging constant additions pointwise. -/
theorem add_constants_rotate (a b c : StateVec F R) :
    add_constants a (add_constants b c) = add_constants (add_constants a c) b := by
  funext i
  simp only [add_constants]
  ring

/-- `M · (y + invM·c) = M·y + c` when `M · invM = 1`. -/
theorem mul_vector_add_inv (M : SqMat F (R + 1)) (hM : invert M * M = 1)
    (y c : StateVec F R) :
    mul_vector M (add_constants y (mul_vector (invert M) c)) =
      add_constants (mul_vector M y) c := by
  rw [mul_vector_add, invert_cancel_right M hM]

/-- The first half (and, symmetrically, second half) of the full rounds: the
optimized fold with pre-multiplied constants equals the reference fold with
raw constants, offset by one round constant. -/
theorem full_rounds_shift (M : SqMat F (R + 1)) (hM : invert M * M = 1) :
    ∀ (n : ℕ) (Cf : ℕ → StateVec F R) (r : StateVec F R),
      ((List.range n).map fun i => mul_vector (invert M) (Cf (i + 1))).foldl
          (fun s c => mul_vector M (add_constants (sbox_full s) c))
          (add_constants r (Cf 0)) =
        add_constants
          (((List.range n).map Cf).foldl
            (fun s c => mul_vector M (sbox_full (add_constants s c))) r)
          (Cf n) := by
  intro n
  induction n with
  | zero => intro Cf r; rfl
  | succ n ih =>
    intro Cf r
    rw [List.range_succ_eq_map, List.map_cons, List.map_cons, List.foldl_cons, List.foldl_cons,
      List.map_map, List.map_map]
    rw [mul_vector_add_inv M hM]
    have hlhs :
        (List.map ((fun i => mul_vector (invert M) (Cf (i + 1))) ∘ Nat.succ) (List.range n)) =
          (List.range n).map fun i => mul_vector (invert M) ((fun j => Cf (j + 1)) (i + 1)) := by
      simp [Function.comp]
    have hrhs : (List.map (Cf ∘ Nat.succ) (List.range n)) =
        (List.range n).map fun j => Cf (j + 1) := by
      simp [Function.comp]
    rw [hlhs, hrhs]
    exact ih (fun j => Cf (j + 1)) (mul_vector M (sbox_full (add_constants r (Cf 0))))

/-- The partial phase of the optimized permutation — the pre-sparse matrix,
the sparse matrices in reversed order, and the backward constant
accumulator — equals `r_p` reference partial rounds (each adding the raw
constant, S-boxing lane 0, and multiplying by the dense MDS), with the raw
constant of the next full round still pending.  `x` is the state before the
last linear step of the first half, so the reference side starts at `M·x`. -/
theorem partial_phase (M : SqMat F (R + 1)) (hM : invert M * M = 1) :
    ∀ (rp : ℕ) (E : ℕ → StateVec F R) (x : StateVec F R),
      (∀ k < rp, subMat (sparseAcc M.transpose k) *
          invert (subMat (sparseAcc M.transpose k)) = 1) →
      ((calculatePartialConstants (invert M) E rp).2.zip
          (((List.range rp).map fun k =>
            (factorise (sparseAcc M.transpose k)).2).reverse)).foldl
          (fun s cm => SparseMDSMatrix.apply cm.2 (add_constant (sbox_part s) cm.1))
          (mul_vector (sparseAcc M.transpose rp).transpose
            (add_constants x (mul_vector (invert M) (calculatePartialConstants (invert M) E rp).1))) =
        add_constants
          (((List.range rp).map E).foldl
            (fun s c => mul_vector M (sbox_part (add_constants s c))) (mul_vector M x))
          (E rp) := by
  intro rp
  induction rp with
  | zero =>
    intro E x _
    show mul_vector (M.transpose).transpose
        (add_constants x (mul_vector (invert M) (E 0))) = _
    rw [Matrix.transpose_transpose, mul_vector_add_inv M hM]
    rfl
  | succ rp ih =>
    intro E x hhat
    have hA : subMat (sparseAcc M.transpose rp) *
        invert (subMat (sparseAcc M.transpose rp)) = 1 :=
      hhat rp (Nat.lt_succ_self rp)
    have hhat' : ∀ k < rp, subMat (sparseAcc M.transpose k) *
        invert (subMat (sparseAcc M.transpose k)) = 1 :=
      fun k hk => hhat k (Nat.lt_succ_of_lt hk)
    have hexp : calculatePartialConstants (invert M) E (rp + 1) =
        (add_constants
          (Function.update (mul_vector (invert M)
            (calculatePartialConstants (invert M) (fun i => E (i + 1)) rp).1) 0 (0 : F)) (E 0),
         (mul_vector (invert M) (calculatePartialConstants (invert M) (fun i => E (i + 1)) rp).1) 0 ::
           (calculatePartialConstants (invert M) (fun i => E (i + 1)) rp).2) := rfl
    have hfact2 : (factorise (sparseAcc M.transpose rp)).2 =
        toSparse (primePrimeM (sparseAcc M.transpose rp)
          (mul_vector (invert (subMat (sparseAcc M.transpose rp)))
            (wCol (sparseAcc M.transpose rp)))).transpose := rfl
    have hlist : ((List.range (rp + 1)).map fun k =>
          (factorise (sparseAcc M.transpose k)).2).reverse =
        (factorise (sparseAcc M.transpose rp)).2 ::
          ((List.range rp).map fun k => (factorise (sparseAcc M.transpose k)).2).reverse := by
      rw [List.range_succ, List.map_append, List.reverse_append]
      rfl
    have h0 : Function.update (mul_vector (invert M)
        (calculatePartialConstants (invert M) (fun i => E (i + 1)) rp).1) 0 (0 : F) 0 = 0 := by
      simp
    rw [hexp, hlist, List.zip_cons_cons, List.foldl_cons]
    rw [sparseAcc_succ_transpose M rp, mul_vector_mul, mul_vector_add_inv M hM,
      add_constants_rotate, ← primeT_sbox_part,
      sbox_part_add_of_zero _ _ h0,
      ← primeT_add_constant, add_constant_restore, hfact2, sparse_apply_eq_mulvec,
      ← mul_vector_mul, ← sparseAcc_factor_transpose M rp hA]
    rw [List.range_succ_eq_map, List.map_cons, List.foldl_cons, List.map_map]
    have hcomp : E ∘ Nat.succ = fun i => E (i + 1) := rfl
    rw [hcomp]
    exact ih (fun i => E (i + 1)) (sbox_part (add_constants (mul_vector M x) (E 0))) hhat'

end PhaseLemmas

section CrossEquivalence

variable {F : Type} [Field F] {R : ℕ}

/-- C1: for every even `R_F ≥ 2`, every `R_P`, every raw constant schedule and
MDS matrix (with the Gauss–Jordan outputs genuine inverses wherever the
construction inverts: the dense MDS itself and the hat block of every
factorisation accumulator), and every initial state, the optimized
permutation built by `Spec::new` — consuming the start/partial/end constant
schedule, the dense MDS `M`, the pre-sparse matrix and the `R_P` sparse
matrices — produces the same final state as the reference permutation that,
for each of the `R_F + R_P` rounds `r`, adds `C_raw[r]`, applies the S-box
(full for `r < R_F/2` and `r ≥ R_F/2 + R_P`, partial otherwise) and
multiplies by `M`. -/
theorem c1_optimized_matches_reference (r_f r_p : ℕ) (C : ℕ → StateVec F R)
    (mds : SqMat F (R + 1)) (state : StateVec F R)
    (hrf : 2 ≤ r_f) (heven : r_f % 2 = 0)
    (hM : invert mds * mds = 1)
    (hhat : ∀ k < r_p, subMat (sparseAcc mds.transpose k) *
      invert (subMat (sparseAcc mds.transpose k)) = 1) :
    (Spec.new r_f r_p C mds).permute state = SpecRef.permute mds C r_f r_p state := by
  simp only [Spec.permute, SpecRef.permute, Spec.new, calculate_optimized_constants,
    calculate_sparse_matrices]
  obtain ⟨m, hm⟩ : ∃ m, r_f / 2 = m + 1 := ⟨r_f / 2 - 1, by omega⟩
  have hsum : r_f + r_p = (m + 1) + (r_p + (m + 1)) := by omega
  rw [hm, hsum, Nat.add_sub_cancel]
  -- start-list bookkeeping
  rw [List.getLastD_concat]
  have hstart : (List.map (fun k => if k = 0 then C 0 else mul_vector (invert mds) (C k))
      (List.range (m + 1))) =
      C 0 :: (List.range m).map (fun i => mul_vector (invert mds) (C (i + 1))) := by
    rw [List.range_succ_eq_map, List.map_cons, List.map_map]
    simp [Function.comp, Nat.succ_ne_zero]
  rw [hstart]
  simp only [List.cons_append, List.getD_cons_zero, List.drop_succ_cons, List.drop_zero]
  rw [List.take_left' (by simp)]
  -- reference-side list bookkeeping
  have hcs1 : List.take (m + 1) (List.map C (List.range ((m + 1) + (r_p + (m + 1))))) =
      List.map C (List.range (m + 1)) := by
    apply List.ext_getElem
    · simp
    · intro i h1 h2
      simp
  have hcs2 : List.take r_p (List.drop (m + 1)
      (List.map C (List.range ((m + 1) + (r_p + (m + 1)))))) =
      List.map (fun i => C (m + 1 + i)) (List.range r_p) := by
    apply List.ext_getElem
    · simp
    · intro i h1 h2
      simp
  have hcs3 : List.drop ((m + 1) + r_p) (List.map C (List.range ((m + 1) + (r_p + (m + 1))))) =
      List.map (fun i => C (m + 1 + r_p + i)) (List.range (m + 1)) := by
    apply List.ext_getElem
    · simp
      omega
    · intro i h1 h2
      simp
  rw [hcs1, hcs2, hcs3]
  -- phase 1: first half of the full rounds
  rw [full_rounds_shift mds hM m C state]
  rw [show List.map C (List.range (m + 1)) = List.map C (List.range m) ++ [C m] by
    rw [List.range_succ, List.map_append]
    rfl]
  rw [List.foldl_append, List.foldl_cons, List.foldl_nil]
  -- phase 2: the partial rounds
  rw [partial_phase mds hM r_p (fun i => C (m + 1 + i)) _ hhat]
  -- phase 3: second half of the full rounds
  have hendlist : List.map (fun k => mul_vector (invert mds) (C (m + 1 + r_p + 1 + k)))
      (List.range m) =
      List.map (fun i => mul_vector (invert mds) (C (m + 1 + r_p + (i + 1)))) (List.range m) := by
    apply List.map_congr_left
    intro i _
    exact congrArg _ (congrArg C (by omega))
  rw [hendlist]
  have h3 := full_rounds_shift mds hM m (fun j => C (m + 1 + r_p + j))
    (List.foldl (fun s c => mul_vector mds (sbox_part (add_constants s c)))
      (mul_vector mds
        (sbox_full
          (add_constants
            (List.foldl (fun s c => mul_vector mds (sbox_full (add_constants s c))) state
              (List.map C (List.range m)))
            (C m))))
      (List.map (fun i => C (m + 1 + i)) (List.range r_p)))
  simp only [] at h3
  simp only [Nat.add_zero] at h3
  rw [h3]
  rw [show List.map (fun i => C (m + 1 + r_p + i)) (List.range (m + 1)) =
      List.map (fun i => C (m + 1 + r_p + i)) (List.range m) ++ [C (m + 1 + r_p + m)] by
    rw [List.range_succ, List.map_append]
    rfl]
  rw [List.foldl_append, List.foldl_cons, List.foldl_nil]

/-- Witness for C1 at a concrete instance over `ZMod 11` with `T = 2`,
`R_F = 2`, `R_P = 1`. -/
theorem c1_optimized_matches_reference_witness :
    (2 ≤ 2 ∧ 2 % 2 = 0 ∧ invert c1mds * c1mds = 1 ∧
      (∀ k < 1, subMat (sparseAcc c1mds.transpose k) *
        invert (subMat (sparseAcc c1mds.transpose k)) = 1)) ∧
    (Spec.new 2 1 c1C c1mds).permute c1state = SpecRef.permute c1mds c1C 2 1 c1state :=
  ⟨⟨by decide, by decide, by decide, by decide⟩,
    c1_optimized_matches_reference 2 1 c1C c1mds c1state (by decide) (by decide)
      (by decide) (by decide)⟩

end CrossEquivalence
